import Mathlib

/-!
Shallow embedding of the path planning and control code in src/movement.py:
the geometry and collision predicates, the kinodynamic RRT planner, the path
smoother, and the pure per-tick computations of the PID trajectory follower.
Real-valued numpy arithmetic is modelled by the real numbers; the global
random source is modelled by explicit streams of draws (a list of sampled
positions for the planner, a list of index pairs for the smoother).
-/

noncomputable section

open Classical

namespace Movement

/-- A 2D position, as the numpy length-2 arrays used throughout the source. -/
abbrev Pos : Type := ℝ × ℝ

/-- The obstacle set: the corner lists stored as the values of the Python
dict named walls. The dict keys (wall names) never influence the geometry
tests, so the embedding keeps only the corner lists. -/
abbrev Walls : Type := List (List Pos)

/-- Embedding of np.linalg.norm on a length-2 vector. -/
def norm2 (v : Pos) : ℝ := Real.sqrt (v.1 ^ 2 + v.2 ^ 2)

/-- Python builtin min over a list of reals, as used on the nonempty corner
coordinate lists (on an empty list Python raises; the embedding returns 0,
a case no call site exercises). -/
def listMin : List ℝ → ℝ
  | [] => 0
  | x :: xs => xs.foldl min x

/-- Python builtin max over a list of reals; see listMin. -/
def listMax : List ℝ → ℝ
  | [] => 0
  | x :: xs => xs.foldl max x

/-- Embedding of is_in_goal_area: axis-aligned bounding box containment of
point between the extremal coordinates of goal_area. -/
def is_in_goal_area (point : Pos) (goal_area : List Pos) : Prop :=
  listMin (goal_area.map Prod.fst) ≤ point.1 ∧ point.1 ≤ listMax (goal_area.map Prod.fst) ∧
  listMin (goal_area.map Prod.snd) ≤ point.2 ∧ point.2 ≤ listMax (goal_area.map Prod.snd)

/-- Embedding of is_collision_free: the point must not lie outside the
hard-coded workspace bounds and must not lie inside any wall bounding box
expanded by safety_margin (the source default 0.1 is passed explicitly at
every call site, matching the Python default argument). -/
def is_collision_free (xe : Pos) (walls : Walls) (safety_margin : ℝ) : Prop :=
  ¬(xe.1 < -0.5 ∨ xe.1 > 1.5 ∨ xe.2 < -0.4 ∨ xe.2 > 0.4) ∧
  ∀ coordinates ∈ walls,
    ¬(listMin (coordinates.map Prod.fst) - safety_margin ≤ xe.1 ∧
      xe.1 ≤ listMax (coordinates.map Prod.fst) + safety_margin ∧
      listMin (coordinates.map Prod.snd) - safety_margin ≤ xe.2 ∧
      xe.2 ≤ listMax (coordinates.map Prod.snd) + safety_margin)

/-- Linear interpolation (1 - t) * p1 + t * p2, componentwise as on numpy
arrays. -/
def lerp (p1 p2 : Pos) (t : ℝ) : Pos :=
  ((1 - t) * p1.1 + t * p2.1, (1 - t) * p1.2 + t * p2.2)

/-- Embedding of is_collision_free_line: every sample point of
np.linspace(0, 1, num_samples) along the segment must be collision free.
For num_samples above 1 the linspace points are k / (num_samples - 1) for
k below num_samples; every call site passes the source default 100. -/
def is_collision_free_line (p1 p2 : Pos) (walls : Walls) (num_samples : ℕ) : Prop :=
  ∀ k : ℕ, k < num_samples →
    is_collision_free (lerp p1 p2 ((k : ℝ) / ((num_samples : ℝ) - 1))) walls 0.1

/-- Embedding of class Node: a tree node holding its position, an optional
parent reference (None for the root), and the control that produced it from
the parent (assigned right after construction for accepted nodes, None for
the root). Python object references become nested values, which is faithful
because the tree is append-only and nodes are never mutated afterwards. -/
inductive Node : Type where
  | mk (position : Pos) (parent : Option Node) (control : Option Pos) : Node

/-- Position field of a Node. -/
def Node.position : Node → Pos
  | .mk p _ _ => p

/-- Parent field of a Node. -/
def Node.parent : Node → Option Node
  | .mk _ par _ => par

/-- Control field of a Node. -/
def Node.control : Node → Option Pos
  | .mk _ _ c => c

/-- Embedding of nearest: Python min(T, key=...) returns the first element
of T minimising the key, which is the fold below keeping the current best
unless a strictly closer node appears. On an empty tree Python raises; the
embedding returns a junk node, a case no call site exercises because the
planner tree always contains at least the start node. -/
def nearest (T : List Node) (xrand : Pos) : Node :=
  match T with
  | [] => Node.mk (0, 0) none none
  | n :: ns =>
      ns.foldl
        (fun best node =>
          if norm2 (node.position - xrand) < norm2 (best.position - xrand) then node else best)
        n

/-- Embedding of choose_control: the difference vector divided componentwise
by its Euclidean norm. Real division is total in Lean (x / 0 = 0), so the
unguarded numpy division by a zero norm becomes the zero vector here; the
variant choose_control_checked makes that error branch explicit. -/
def choose_control (xnear xrand : Pos) : Pos :=
  ((xrand - xnear).1 / norm2 (xrand - xnear), (xrand - xnear).2 / norm2 (xrand - xnear))

/-- Variant of choose_control that returns none exactly when the division in
the source divides by a zero norm (numpy would emit NaN components there);
otherwise it returns the choose_control value. -/
def choose_control_checked (xnear xrand : Pos) : Option Pos :=
  if norm2 (xrand - xnear) = 0 then none else some (choose_control xnear xrand)

/-- Embedding of simulate: one forward Euler step xnear + control * dt.
Every call site passes the source default dt = 0.05 explicitly. -/
def simulate (xnear control : Pos) (dt : ℝ) : Pos :=
  (xnear.1 + control.1 * dt, xnear.2 + control.2 * dt)

/-- Positions collected by the construct_path loop before the final
reversal: the position of the node, then of its parent, up to the root. -/
def node_chain : Node → List Pos
  | .mk p none _ => [p]
  | .mk p (some par) _ => p :: node_chain par

/-- Embedding of construct_path: walk the parent chain collecting positions,
then reverse, so the result runs from the root to the goal node. -/
def construct_path (node : Node) : List Pos := (node_chain node).reverse

/-- Position of the parentless ancestor of a node (the tree root). -/
def root_pos : Node → Pos
  | .mk p none _ => p
  | .mk _ (some par) _ => root_pos par

/-- Collision freedom of every position on the parent chain of a node except
the parentless root, with the margin 0.1 used by the planner. -/
def chain_ok (walls : Walls) : Node → Prop
  | .mk _ none _ => True
  | .mk p (some par) _ => is_collision_free p walls 0.1 ∧ chain_ok walls par

/-- Iteration loop of kinodynamic_rrt over an explicit stream of sampled
positions (one draw of sample_random_position per remaining iteration, so
the stream length is the iteration budget N). The first component of the
result is the final tree, kept by the source in the local T; the second
component is the return value of the source function. -/
def kinodynamic_rrt_loop (goal_area : List Pos) (walls : Walls) :
    List Pos → List Node → List Node × Option (List Pos)
  | [], T => (T, none)
  | xrand :: rest, T =>
      let xnear := nearest T xrand
      let ue := choose_control xnear.position xrand
      let xe := simulate xnear.position ue 0.05
      if is_collision_free xe walls 0.1 then
        let new_node := Node.mk xe (some xnear) (some ue)
        if is_in_goal_area xe goal_area then
          (T ++ [new_node], some (construct_path new_node))
        else
          kinodynamic_rrt_loop goal_area walls rest (T ++ [new_node])
      else
        kinodynamic_rrt_loop goal_area walls rest T

/-- Embedding of kinodynamic_rrt: run the iteration loop from the singleton
tree holding the start node and return the source return value (the
constructed path on success, none when the sample budget is exhausted). -/
def kinodynamic_rrt (start_pos : Pos) (goal_area : List Pos) (walls : Walls)
    (samples : List Pos) : Option (List Pos) :=
  (kinodynamic_rrt_loop goal_area walls samples [Node.mk start_pos none none]).2

/-- Attempt loop of smooth_path over an explicit stream of random draws: the
pair drawn by random.sample at an attempt is given as an unordered pair
(a, b); sorting gives the indices i and j with i below j. A draw whose
indices are not two distinct positions below the current length cannot be
produced by random.sample over range(len(smoothed_path)) and is skipped.
A break on length at most 2 returns immediately, as in the source. -/
def smooth_path_loop (walls : Walls) : List (ℕ × ℕ) → List Pos → List Pos
  | [], smoothed_path => smoothed_path
  | (a, b) :: rest, smoothed_path =>
      if smoothed_path.length ≤ 2 then smoothed_path
      else
        let i := min a b
        let j := max a b
        if i < j ∧ j < smoothed_path.length ∧
            is_collision_free_line (smoothed_path.getD i (0, 0)) (smoothed_path.getD j (0, 0))
              walls 100 then
          smooth_path_loop walls rest (smoothed_path.take (i + 1) ++ smoothed_path.drop j)
        else
          smooth_path_loop walls rest smoothed_path

/-- Embedding of smooth_path: the source copies the input list and splices
it in place for max_attempts (default 50) attempts; the embedding runs the
same attempts over the explicit stream of draws (one pair per attempt, so
the stream length is max_attempts). -/
def smooth_path (path : List Pos) (walls : Walls) (choices : List (ℕ × ℕ)) : List Pos :=
  smooth_path_loop walls choices path

/-- Collision freedom, via is_collision_free_line at its default sampling
density, of every segment between consecutive waypoints of a path. -/
def segments_ok (walls : Walls) : List Pos → Prop
  | p :: q :: rest => is_collision_free_line p q walls 100 ∧ segments_ok walls (q :: rest)
  | _ => True

/-- Embedding of class PIDController: gains, setpoint and the mutable
controller memory (previous_error, integral). -/
structure PIDController : Type where
  kp : ℝ
  ki : ℝ
  kd : ℝ
  setpoint : ℝ
  previous_error : ℝ
  integral : ℝ

/-- Embedding of PIDController.compute: returns the control output together
with the updated controller state (the source mutates integral and
previous_error in place). -/
def PIDController.compute (self : PIDController) (current_value dt : ℝ) : ℝ × PIDController :=
  let error := self.setpoint - current_value
  let p_term := self.kp * error
  let integral := self.integral + error * dt
  let i_term := self.ki * integral
  let d_term := self.kd * (error - self.previous_error) / dt
  (p_term + i_term + d_term,
    PIDController.mk self.kp self.ki self.kd self.setpoint error integral)

/-- Per-segment setup of move_ball_along_path_with_pid: the segment direction
and its unconditional division by the segment length. The source computes
line_direction_normalized with no zero guard; the embedding returns none
exactly when that division divides by zero (numpy emits NaN components with
a runtime warning instead of skipping the segment). -/
def line_direction_normalized (start_pos end_pos : Pos) : Option Pos :=
  let line_direction : Pos := end_pos - start_pos
  let line_length := norm2 line_direction
  if line_length = 0 then none
  else some (line_direction.1 / line_length, line_direction.2 / line_length)

/-- Deviation sample exactly as the source expression computes it, with the
Python operator precedence: only the second product is divided by the
segment length. -/
def deviation_code (A B P : Pos) : ℝ :=
  (B.1 - A.1) * (A.2 - P.2) -
    (A.1 - P.1) * (B.2 - A.2) / Real.sqrt ((B.1 - A.1) ^ 2 + (B.2 - A.2) ^ 2)

/-- Modelled from the claim wording: the signed perpendicular deviation of P
from the line through A and B, in which the whole bracketed combination is
divided by the segment length. Stated only to compare against
deviation_code. -/
def deviation_spec (A B P : Pos) : ℝ :=
  ((B.1 - A.1) * (A.2 - P.2) - (A.1 - P.1) * (B.2 - A.2)) /
    Real.sqrt ((B.1 - A.1) ^ 2 + (B.2 - A.2) ^ 2)

/-- Result of one control tick of move_ball_along_path_with_pid: the control
vector written to data.ctrl, the updated controller states, and the two
derived quantities of the tick. -/
structure TickResult : Type where
  control : Pos
  pid_x : PIDController
  pid_y : PIDController
  distance_to_goal : ℝ
  desired_speed : ℝ

/-- Pure computation of one tick of the inner control loop of
move_ball_along_path_with_pid at a given ball position: distance to the
segment endpoint, speed shaping with the source constants max_speed = 10,
min_speed = 1 and slowdown_distance = 1.0, the two PID outputs, and the
normalisation of the control vector that is skipped when the magnitude is
not positive. -/
def control_tick (pid_x pid_y : PIDController) (ball_pos end_pos : Pos) (dt : ℝ) : TickResult :=
  let max_speed : ℝ := 10
  let min_speed : ℝ := 1
  let slowdown_distance : ℝ := 1
  let ball_to_end : Pos := end_pos - ball_pos
  let distance_to_goal := norm2 ball_to_end
  let desired_speed :=
    if distance_to_goal < slowdown_distance then
      max min_speed (distance_to_goal / slowdown_distance * max_speed)
    else max_speed
  let rx := PIDController.compute pid_x ball_pos.1 dt
  let ry := PIDController.compute pid_y ball_pos.2 dt
  let control_vector : Pos := (rx.1, ry.1)
  let control_magnitude := norm2 control_vector
  let control :=
    if control_magnitude > 0 then
      (rx.1 / control_magnitude * desired_speed, ry.1 / control_magnitude * desired_speed)
    else control_vector
  TickResult.mk control rx.2 ry.2 distance_to_goal desired_speed

/-! Helper lemmas about the Euclidean norm. -/

lemma norm2_nonneg (v : Pos) : 0 ≤ norm2 v := Real.sqrt_nonneg _

lemma norm2_zero : norm2 ((0 : ℝ), (0 : ℝ)) = 0 := by
  simp [norm2]

lemma sq_sum_pos_of_ne {v : Pos} (h : v ≠ 0) : 0 < v.1 ^ 2 + v.2 ^ 2 := by
  have h1 : ¬(v.1 = 0 ∧ v.2 = 0) := by
    intro hc
    exact h (Prod.ext hc.1 hc.2)
  rcases not_and_or.mp h1 with h2 | h2
  · have h3 : 0 < v.1 ^ 2 := by positivity
    nlinarith [sq_nonneg v.2]
  · have h3 : 0 < v.2 ^ 2 := by positivity
    nlinarith [sq_nonneg v.1]

lemma norm2_pos_of_ne {v : Pos} (h : v ≠ 0) : 0 < norm2 v :=
  Real.sqrt_pos.mpr (sq_sum_pos_of_ne h)

lemma norm2_eq_zero_of_eq_zero {v : Pos} (h : v = 0) : norm2 v = 0 := by
  subst h
  simp [norm2]

/-- Choosing a control toward the current position divides the zero vector
by a zero norm, which the total real division turns into the zero vector. -/
lemma choose_control_self (p : Pos) : choose_control p p = ((0 : ℝ), (0 : ℝ)) := by
  simp [choose_control, sub_self]

/-- A simulate step along the zero control does not move the position. -/
lemma simulate_zero_control (p : Pos) : simulate p ((0 : ℝ), (0 : ℝ)) 0.05 = p := by
  apply Prod.ext <;> simp [simulate]

/-- Whenever the sampled position differs from the nearest position, the
control chosen by choose_control is a unit vector. -/
lemma norm2_choose_control {xnear xrand : Pos} (h : xrand ≠ xnear) :
    norm2 (choose_control xnear xrand) = 1 := by
  set d : Pos := xrand - xnear with hd
  have hdne : d ≠ 0 := sub_ne_zero.mpr h
  have hn : 0 < norm2 d := norm2_pos_of_ne hdne
  have hn2 : norm2 d ^ 2 = d.1 ^ 2 + d.2 ^ 2 :=
    Real.sq_sqrt (by positivity)
  have hsum : (d.1 / norm2 d) ^ 2 + (d.2 / norm2 d) ^ 2 = 1 := by
    field_simp
    linarith [hn2]
  calc norm2 (choose_control xnear xrand)
      = Real.sqrt ((d.1 / norm2 d) ^ 2 + (d.2 / norm2 d) ^ 2) := rfl
    _ = Real.sqrt 1 := by rw [hsum]
    _ = 1 := Real.sqrt_one

/-- One simulate step of length dt = 0.05 along a unit control moves the
position by Euclidean distance exactly 0.05. -/
lemma norm2_simulate_sub {xnear u : Pos} (hu : norm2 u = 1) :
    norm2 (simulate xnear u 0.05 - xnear) = 0.05 := by
  have hsub : simulate xnear u 0.05 - xnear = (u.1 * 0.05, u.2 * 0.05) := by
    apply Prod.ext <;> simp [simulate, Prod.fst_sub, Prod.snd_sub]
  have hsq : (u.1 * 0.05) ^ 2 + (u.2 * 0.05) ^ 2 = (u.1 ^ 2 + u.2 ^ 2) * (0.05 : ℝ) ^ 2 := by
    ring
  rw [hsub]
  show Real.sqrt ((u.1 * 0.05) ^ 2 + (u.2 * 0.05) ^ 2) = 0.05
  rw [hsq, Real.sqrt_mul (by positivity), Real.sqrt_sq (by norm_num)]
  have hu2 : Real.sqrt (u.1 ^ 2 + u.2 ^ 2) = 1 := hu
  rw [hu2]
  norm_num

/-! Helper lemmas about nodes and parent chains. -/

lemma node_chain_ne_nil (n : Node) : node_chain n ≠ [] := by
  cases n with
  | mk p par c => cases par <;> simp [node_chain]

lemma head?_node_chain (n : Node) : (node_chain n).head? = some n.position := by
  cases n with
  | mk p par c => cases par <;> simp [node_chain, Node.position]

lemma position_mem_node_chain (n : Node) : n.position ∈ node_chain n := by
  cases n with
  | mk p par c => cases par <;> simp [node_chain, Node.position]

lemma getLast?_node_chain : ∀ n : Node, (node_chain n).getLast? = some (root_pos n)
  | .mk p none c => by simp [node_chain, root_pos]
  | .mk p (some par) c => by
      have h := getLast?_node_chain par
      cases hc : node_chain par with
      | nil => exact absurd hc (node_chain_ne_nil par)
      | cons b l =>
          show ((p :: node_chain par).getLast? = some (root_pos par))
          rw [hc, List.getLast?_cons_cons, ← hc, h]

lemma cf_of_chain_ok {walls : Walls} : ∀ {n par : Node}, n.parent = some par →
    chain_ok walls n → is_collision_free n.position walls 0.1 := by
  intro n par hpar hok
  cases n with
  | mk p po c =>
      cases po with
      | none => simp [Node.parent] at hpar
      | some q =>
          simp only [chain_ok] at hok
          exact hok.1

lemma chain_ok_dropLast {walls : Walls} : ∀ n : Node, chain_ok walls n →
    ∀ pos ∈ (node_chain n).dropLast, is_collision_free pos walls 0.1
  | .mk p none c => by
      intro _ pos hpos
      simp [node_chain] at hpos
  | .mk p (some par) c => by
      intro hok pos hpos
      simp only [chain_ok] at hok
      cases hc : node_chain par with
      | nil => exact absurd hc (node_chain_ne_nil par)
      | cons b l =>
          rw [show node_chain (Node.mk p (some par) c) = p :: node_chain par from rfl,
            hc, List.dropLast_cons₂] at hpos
          rcases List.mem_cons.mp hpos with h | h
          · exact h ▸ hok.1
          · exact chain_ok_dropLast par hok.2 pos (by rw [hc]; exact h)

/-- Collision freedom of every position on the whole parent chain. -/
def chain_all (walls : Walls) (n : Node) : Prop :=
  ∀ pos ∈ node_chain n, is_collision_free pos walls 0.1

/-! Helper lemmas about nearest. -/

lemma foldl_choice_mem {α : Type} (f : α → α → α) (hf : ∀ a b, f a b = a ∨ f a b = b) :
    ∀ (l : List α) (acc : α), List.foldl f acc l = acc ∨ List.foldl f acc l ∈ l
  | [], _ => Or.inl rfl
  | x :: xs, acc => by
      rcases foldl_choice_mem f hf xs (f acc x) with h | h
      · rcases hf acc x with h2 | h2
        · left
          rw [List.foldl_cons, h, h2]
        · right
          rw [List.foldl_cons, h, h2]
          exact List.mem_cons_self x xs
      · right
        exact List.mem_cons_of_mem x h

lemma nearest_mem (T : List Node) (xrand : Pos) (h : T ≠ []) : nearest T xrand ∈ T := by
  cases T with
  | nil => exact absurd rfl h
  | cons n ns =>
      have hf : ∀ a b : Node,
          (if norm2 (b.position - xrand) < norm2 (a.position - xrand) then b else a) = a ∨
          (if norm2 (b.position - xrand) < norm2 (a.position - xrand) then b else a) = b := by
        intro a b
        by_cases hc : norm2 (b.position - xrand) < norm2 (a.position - xrand)
        · exact Or.inr (if_pos hc)
        · exact Or.inl (if_neg hc)
      have hm := foldl_choice_mem _ hf ns n
      show List.foldl _ n ns ∈ n :: ns
      rcases hm with h1 | h1
      · rw [h1]
        exact List.mem_cons_self n ns
      · exact List.mem_cons_of_mem n h1

/-! Generic preservation lemma for the planner loop: any property of nodes
that holds of the start tree and is preserved by the acceptance of a new
collision-free node holds of every node of the final tree, and the returned
path, when there is one, is the constructed path of an accepted goal node. -/

lemma kinodynamic_rrt_loop_preserves (goal_area : List Pos) (walls : Walls) (P : Node → Prop)
    (hP : ∀ (T : List Node) (xrand : Pos), T ≠ [] → (∀ n ∈ T, P n) →
      is_collision_free
        (simulate (nearest T xrand).position (choose_control (nearest T xrand).position xrand) 0.05)
        walls 0.1 →
      P (Node.mk
          (simulate (nearest T xrand).position (choose_control (nearest T xrand).position xrand) 0.05)
          (some (nearest T xrand))
          (some (choose_control (nearest T xrand).position xrand)))) :
    ∀ (samples : List Pos) (T : List Node), T ≠ [] → (∀ n ∈ T, P n) →
      (kinodynamic_rrt_loop goal_area walls samples T).1 ≠ [] ∧
      (∀ n ∈ (kinodynamic_rrt_loop goal_area walls samples T).1, P n) ∧
      ∀ p, (kinodynamic_rrt_loop goal_area walls samples T).2 = some p →
        ∃ m ∈ (kinodynamic_rrt_loop goal_area walls samples T).1,
          P m ∧ is_in_goal_area m.position goal_area ∧ p = construct_path m := by
  intro samples
  induction samples with
  | nil =>
      intro T hne hinv
      refine ⟨hne, hinv, ?_⟩
      intro p hp
      simp [kinodynamic_rrt_loop] at hp
  | cons xrand rest ih =>
      intro T hne hinv
      simp only [kinodynamic_rrt_loop]
      by_cases hcf : is_collision_free
          (simulate (nearest T xrand).position (choose_control (nearest T xrand).position xrand)
            0.05) walls 0.1
      · rw [if_pos hcf]
        have hnew := hP T xrand hne hinv hcf
        have hinv2 : ∀ n ∈ T ++ [Node.mk
            (simulate (nearest T xrand).position
              (choose_control (nearest T xrand).position xrand) 0.05)
            (some (nearest T xrand))
            (some (choose_control (nearest T xrand).position xrand))], P n := by
          intro n hn
          rcases List.mem_append.mp hn with h1 | h1
          · exact hinv n h1
          · rw [List.mem_singleton.mp h1]
            exact hnew
        by_cases hgoal : is_in_goal_area
            (simulate (nearest T xrand).position
              (choose_control (nearest T xrand).position xrand) 0.05) goal_area
        · rw [if_pos hgoal]
          refine ⟨by simp, hinv2, ?_⟩
          intro p hp
          refine ⟨Node.mk _ (some (nearest T xrand))
            (some (choose_control (nearest T xrand).position xrand)),
            by simp, hnew, hgoal, ?_⟩
          exact (Option.some_injective _ hp).symm
        · rw [if_neg hgoal]
          exact ih _ (by simp) hinv2
      · rw [if_neg hcf]
        exact ih T hne hinv

lemma tail_reverse {α : Type} (l : List α) : l.reverse.tail = l.dropLast.reverse := by
  induction l using List.reverseRecOn with
  | nil => simp
  | append_singleton l a ih => simp

/-- Claim C1 (amended): every node accepted into the planner tree during the
iteration loop, that is every node other than the parentless root, satisfies
is_collision_free at the moment of acceptance, and hence so does every
waypoint of a returned path except the first; the root node is created from
the caller-supplied start position without any collision check, so the
invariant extends to the root, and to the first waypoint of a returned path,
exactly under the additional assumption that the start position itself is
collision free. -/
theorem C1_collision_invariant (start_pos : Pos) (goal_area : List Pos) (walls : Walls)
    (samples : List Pos) :
    (∀ n ∈ (kinodynamic_rrt_loop goal_area walls samples [Node.mk start_pos none none]).1,
       ∀ par, n.parent = some par → is_collision_free n.position walls 0.1) ∧
    (∀ p, kinodynamic_rrt start_pos goal_area walls samples = some p →
       ∀ pos ∈ p.tail, is_collision_free pos walls 0.1) ∧
    (is_collision_free start_pos walls 0.1 →
      (∀ n ∈ (kinodynamic_rrt_loop goal_area walls samples [Node.mk start_pos none none]).1,
         is_collision_free n.position walls 0.1) ∧
      ∀ p, kinodynamic_rrt start_pos goal_area walls samples = some p →
        ∀ pos ∈ p, is_collision_free pos walls 0.1) := by
  have hP1 : ∀ (T : List Node) (xrand : Pos), T ≠ [] → (∀ n ∈ T, chain_ok walls n) →
      is_collision_free
        (simulate (nearest T xrand).position (choose_control (nearest T xrand).position xrand)
          0.05) walls 0.1 →
      chain_ok walls (Node.mk
        (simulate (nearest T xrand).position (choose_control (nearest T xrand).position xrand)
          0.05)
        (some (nearest T xrand))
        (some (choose_control (nearest T xrand).position xrand))) := by
    intro T xrand hne hinv hcf
    simp only [chain_ok]
    exact ⟨hcf, hinv _ (nearest_mem T xrand hne)⟩
  have h1 := kinodynamic_rrt_loop_preserves goal_area walls (chain_ok walls) hP1 samples
    [Node.mk start_pos none none] (by simp)
    (by
      intro n hn
      rw [List.mem_singleton.mp hn]
      simp [chain_ok])
  refine ⟨?_, ?_, ?_⟩
  · intro n hn par hpar
    exact cf_of_chain_ok hpar (h1.2.1 n hn)
  · intro p hp pos hpos
    obtain ⟨m, hm, hok, hgoal, hpm⟩ := h1.2.2 p hp
    rw [hpm, construct_path, tail_reverse] at hpos
    exact chain_ok_dropLast m hok pos (List.mem_reverse.mp hpos)
  · intro hstart
    have hP2 : ∀ (T : List Node) (xrand : Pos), T ≠ [] → (∀ n ∈ T, chain_all walls n) →
        is_collision_free
          (simulate (nearest T xrand).position (choose_control (nearest T xrand).position xrand)
            0.05) walls 0.1 →
        chain_all walls (Node.mk
          (simulate (nearest T xrand).position (choose_control (nearest T xrand).position xrand)
            0.05)
          (some (nearest T xrand))
          (some (choose_control (nearest T xrand).position xrand))) := by
      intro T xrand hne hinv hcf pos hpos
      rcases List.mem_cons.mp hpos with h | h
      · rw [h]
        exact hcf
      · exact hinv _ (nearest_mem T xrand hne) pos h
    have h2 := kinodynamic_rrt_loop_preserves goal_area walls (chain_all walls) hP2 samples
      [Node.mk start_pos none none] (by simp)
      (by
        intro n hn
        rw [List.mem_singleton.mp hn]
        intro pos hpos
        rcases List.mem_singleton.mp hpos with h
        rw [h]
        exact hstart)
    constructor
    · intro n hn
      exact h2.2.1 n hn n.position (position_mem_node_chain n)
    · intro p hp pos hpos
      obtain ⟨m, hm, hall, hgoal, hpm⟩ := h2.2.2 p hp
      rw [hpm, construct_path] at hpos
      exact hall pos (List.mem_reverse.mp hpos)

/-- Claim C3: whenever kinodynamic_rrt returns a path rather than none, the
path is nonempty, its first element is the start position, its last element
satisfies is_in_goal_area, and it is the constructed (reversed parent chain)
path of a tree node accepted inside the goal area; and once the sample
budget is exhausted with no accepted candidate in the goal area the loop
returns none. -/
theorem C3_path_structure (start_pos : Pos) (goal_area : List Pos) (walls : Walls)
    (samples : List Pos) :
    (∀ p, kinodynamic_rrt start_pos goal_area walls samples = some p →
       p ≠ [] ∧ p.head? = some start_pos ∧
       (∃ q, p.getLast? = some q ∧ is_in_goal_area q goal_area) ∧
       ∃ m ∈ (kinodynamic_rrt_loop goal_area walls samples [Node.mk start_pos none none]).1,
         is_in_goal_area m.position goal_area ∧ p = construct_path m) ∧
    ∀ T, (kinodynamic_rrt_loop goal_area walls [] T).2 = none := by
  constructor
  · intro p hp
    have hP : ∀ (T : List Node) (xrand : Pos), T ≠ [] →
        (∀ n ∈ T, root_pos n = start_pos) →
        is_collision_free
          (simulate (nearest T xrand).position (choose_control (nearest T xrand).position xrand)
            0.05) walls 0.1 →
        root_pos (Node.mk
          (simulate (nearest T xrand).position (choose_control (nearest T xrand).position xrand)
            0.05)
          (some (nearest T xrand))
          (some (choose_control (nearest T xrand).position xrand))) = start_pos := by
      intro T xrand hne hinv hcf
      rw [show root_pos (Node.mk
          (simulate (nearest T xrand).position (choose_control (nearest T xrand).position xrand)
            0.05)
          (some (nearest T xrand))
          (some (choose_control (nearest T xrand).position xrand))) =
          root_pos (nearest T xrand) from rfl]
      exact hinv _ (nearest_mem T xrand hne)
    have h1 := kinodynamic_rrt_loop_preserves goal_area walls (fun n => root_pos n = start_pos)
      hP samples [Node.mk start_pos none none] (by simp)
      (by
        intro n hn
        rw [List.mem_singleton.mp hn]
        rfl)
    obtain ⟨m, hm, hroot, hgoal, hpm⟩ := h1.2.2 p hp
    subst hpm
    refine ⟨?_, ?_, ⟨m.position, ?_, hgoal⟩, m, hm, hgoal, rfl⟩
    · intro hnil
      rw [construct_path] at hnil
      exact node_chain_ne_nil m (List.reverse_eq_nil_iff.mp hnil)
    · rw [construct_path, List.head?_reverse, getLast?_node_chain, hroot]
    · rw [construct_path, List.getLast?_reverse, head?_node_chain]
  · intro T
    simp [kinodynamic_rrt_loop]

/-- Claim C8 (amended): whenever the sampled position differs from the
position of the nearest node, the candidate is nearest plus the unit control
times dt = 0.05, and it lies at Euclidean distance exactly 0.05 from the
nearest position; consequently every accepted non-root tree node lies at
distance exactly 0.05 from its parent except in the degenerate case where
the sample coincides with the nearest position, in which case the unguarded
division by a zero norm yields a node at the parent position itself. -/
theorem C8_step_distance (start_pos : Pos) (goal_area : List Pos) (walls : Walls)
    (samples : List Pos) :
    (∀ xnear xrand : Pos, xrand ≠ xnear →
       simulate xnear (choose_control xnear xrand) 0.05 =
         (xnear.1 + (choose_control xnear xrand).1 * 0.05,
          xnear.2 + (choose_control xnear xrand).2 * 0.05) ∧
       norm2 (simulate xnear (choose_control xnear xrand) 0.05 - xnear) = 0.05) ∧
    ∀ n ∈ (kinodynamic_rrt_loop goal_area walls samples [Node.mk start_pos none none]).1,
      ∀ par, n.parent = some par →
        norm2 (n.position - par.position) = 0.05 ∨ n.position = par.position := by
  constructor
  · intro xnear xrand h
    exact ⟨rfl, norm2_simulate_sub (norm2_choose_control h)⟩
  · have hP : ∀ (T : List Node) (xrand : Pos), T ≠ [] →
        (∀ n ∈ T, ∀ par, n.parent = some par →
          norm2 (n.position - par.position) = 0.05 ∨ n.position = par.position) →
        is_collision_free
          (simulate (nearest T xrand).position (choose_control (nearest T xrand).position xrand)
            0.05) walls 0.1 →
        ∀ par, (Node.mk
            (simulate (nearest T xrand).position
              (choose_control (nearest T xrand).position xrand) 0.05)
            (some (nearest T xrand))
            (some (choose_control (nearest T xrand).position xrand))).parent = some par →
          norm2 ((Node.mk
            (simulate (nearest T xrand).position
              (choose_control (nearest T xrand).position xrand) 0.05)
            (some (nearest T xrand))
            (some (choose_control (nearest T xrand).position xrand))).position -
              par.position) = 0.05 ∨
          (Node.mk
            (simulate (nearest T xrand).position
              (choose_control (nearest T xrand).position xrand) 0.05)
            (some (nearest T xrand))
            (some (choose_control (nearest T xrand).position xrand))).position =
              par.position := by
      intro T xrand hne hinv hcf par hpar
      simp only [Node.parent, Option.some_inj] at hpar
      subst hpar
      set nd := nearest T xrand with hnd
      show norm2 (simulate nd.position (choose_control nd.position xrand) 0.05 - nd.position) =
          0.05 ∨
        simulate nd.position (choose_control nd.position xrand) 0.05 = nd.position
      by_cases hx : xrand = nd.position
      · right
        rw [hx, choose_control_self, simulate_zero_control]
      · left
        exact norm2_simulate_sub (norm2_choose_control hx)
    exact (kinodynamic_rrt_loop_preserves goal_area walls _ hP samples
      [Node.mk start_pos none none] (by simp)
      (by
        intro n hn
        rw [List.mem_singleton.mp hn]
        intro par hpar
        simp [Node.parent] at hpar)).2.1

/-! Helper lemmas about the splice performed by the smoother: the sub-path
strictly between positions i and j is removed, keeping the head, the last
element, at most the original length, and the subsequence structure. -/

lemma head?_splice {α : Type} (l : List α) (i j : ℕ) :
    (l.take (i + 1) ++ l.drop j).head? = l.head? := by
  cases l with
  | nil => simp
  | cons x xs => simp [List.take_succ_cons]

lemma drop_ne_nil_of_lt {α : Type} (l : List α) (j : ℕ) (h : j < l.length) : l.drop j ≠ [] := by
  intro hc
  have hlen := congrArg List.length hc
  simp at hlen
  omega

lemma getLast?_drop_of_lt {α : Type} : ∀ (l : List α) (j : ℕ), j < l.length →
    (l.drop j).getLast? = l.getLast?
  | _, 0, _ => by simp
  | [], j + 1, h => by simp at h
  | x :: xs, j + 1, h => by
      have hxs : j < xs.length := by simpa using h
      rw [List.drop_succ_cons, getLast?_drop_of_lt xs j hxs]
      cases xs with
      | nil => simp at hxs
      | cons b l2 => rw [List.getLast?_cons_cons]

lemma getLast?_splice {α : Type} (l : List α) (i j : ℕ) (hj : j < l.length) :
    (l.take (i + 1) ++ l.drop j).getLast? = l.getLast? := by
  rw [List.getLast?_append_of_ne_nil _ (drop_ne_nil_of_lt l j hj), getLast?_drop_of_lt l j hj]

lemma length_splice {α : Type} (l : List α) (i j : ℕ) (hij : i < j) :
    (l.take (i + 1) ++ l.drop j).length ≤ l.length := by
  simp only [List.length_append, List.length_take, List.length_drop]
  have h1 : min (i + 1) l.length ≤ i + 1 := min_le_left _ _
  have h2 : min (i + 1) l.length ≤ l.length := min_le_right _ _
  omega

lemma splice_sublist {α : Type} (l : List α) (i j : ℕ) (hij : i < j) :
    List.Sublist (l.take (i + 1) ++ l.drop j) l := by
  have h1 : List.Sublist (l.drop j) (l.drop (i + 1)) := by
    have hd : l.drop j = (l.drop (i + 1)).drop (j - (i + 1)) := by
      rw [List.drop_drop]
      congr 1
      omega
    rw [hd]
    exact List.drop_sublist _ _
  have h2 := h1.append_left (l.take (i + 1))
  have h4 : List.Sublist (l.take (i + 1) ++ l.drop (i + 1)) l := by
    rw [List.take_append_drop]
  exact h2.trans h4

/-! Helper lemmas about segments_ok, the pairwise-consecutive collision
freedom of a path. -/

lemma segments_ok_tail {walls : Walls} {p : Pos} {l : List Pos}
    (h : segments_ok walls (p :: l)) : segments_ok walls l := by
  cases l with
  | nil => trivial
  | cons q rest => exact h.2

lemma segments_ok_cons_of {walls : Walls} {p : Pos} {l : List Pos}
    (hl : segments_ok walls l)
    (hh : ∀ q, l.head? = some q → is_collision_free_line p q walls 100) :
    segments_ok walls (p :: l) := by
  cases l with
  | nil => trivial
  | cons q rest => exact ⟨hh q rfl, hl⟩

lemma segments_ok_head {walls : Walls} {p q : Pos} {l : List Pos}
    (h : segments_ok walls (p :: l)) (hq : l.head? = some q) :
    is_collision_free_line p q walls 100 := by
  cases l with
  | nil => simp at hq
  | cons b rest =>
      have hb : b = q := by simpa using hq
      exact hb ▸ h.1

lemma segments_ok_drop {walls : Walls} : ∀ (j : ℕ) (l : List Pos), segments_ok walls l →
    segments_ok walls (l.drop j)
  | 0, _, h => h
  | j + 1, [], _ => trivial
  | j + 1, p :: l, h => segments_ok_drop j l (segments_ok_tail h)

/-- Splicing out the sub-path strictly between positions i and j preserves
pairwise-consecutive collision freedom, provided the new direct segment from
position i to position j is itself collision free: every other consecutive
pair of the result is a consecutive pair of the original path. -/
lemma segments_ok_splice {walls : Walls} : ∀ (l : List Pos) (i j : ℕ), i < j → j < l.length →
    segments_ok walls l →
    is_collision_free_line (l.getD i (0, 0)) (l.getD j (0, 0)) walls 100 →
    segments_ok walls (l.take (i + 1) ++ l.drop j)
  | [], i, j, _, hj, _, _ => by simp at hj
  | p :: ls, 0, j, hij, hj, hok, hline => by
      obtain ⟨j', rfl⟩ : ∃ j', j = j' + 1 := ⟨j - 1, by omega⟩
      have hj' : j' < ls.length := by simpa using hj
      rw [show (0 : ℕ) + 1 = 1 from rfl, show (p :: ls).take 1 = [p] from rfl,
        List.drop_succ_cons, List.singleton_append]
      refine segments_ok_cons_of (segments_ok_drop j' ls (segments_ok_tail hok)) ?_
      intro q hq
      rw [List.drop_eq_getElem_cons hj'] at hq
      have hql : q = ls[j'] := (Option.some_inj.mp hq).symm
      subst hql
      have h1 : (p :: ls).getD 0 ((0 : ℝ), (0 : ℝ)) = p := List.getD_cons_zero
      have h2 : (p :: ls).getD (j' + 1) ((0 : ℝ), (0 : ℝ)) = ls[j'] := by
        rw [List.getD_cons_succ, List.getD_eq_getElem?_getD, List.getElem?_eq_getElem hj']
        rfl
      rw [h1, h2] at hline
      exact hline
  | p :: ls, i + 1, j, hij, hj, hok, hline => by
      obtain ⟨j', rfl⟩ : ∃ j', j = j' + 1 := ⟨j - 1, by omega⟩
      have hij' : i < j' := by omega
      have hj' : j' < ls.length := by simpa using hj
      rw [List.take_succ_cons, List.drop_succ_cons, List.cons_append]
      have hih := segments_ok_splice ls i j' hij' hj' (segments_ok_tail hok)
        (by
          have h1 : (p :: ls).getD (i + 1) ((0 : ℝ), (0 : ℝ)) = ls.getD i (0, 0) :=
            List.getD_cons_succ
          have h2 : (p :: ls).getD (j' + 1) ((0 : ℝ), (0 : ℝ)) = ls.getD j' (0, 0) :=
            List.getD_cons_succ
          rw [h1, h2] at hline
          exact hline)
      refine segments_ok_cons_of hih ?_
      intro q hq
      rw [head?_splice] at hq
      exact segments_ok_head hok hq

/-! Loop-level lemmas for the smoother. -/

lemma smooth_path_loop_head? (walls : Walls) :
    ∀ (choices : List (ℕ × ℕ)) (path : List Pos),
      (smooth_path_loop walls choices path).head? = path.head?
  | [], _ => rfl
  | (a, b) :: rest, path => by
      simp only [smooth_path_loop]
      by_cases h2 : path.length ≤ 2
      · rw [if_pos h2]
      · rw [if_neg h2]
        by_cases hc : min a b < max a b ∧ max a b < path.length ∧
            is_collision_free_line (path.getD (min a b) (0, 0)) (path.getD (max a b) (0, 0))
              walls 100
        · rw [if_pos hc, smooth_path_loop_head? walls rest _, head?_splice]
        · rw [if_neg hc, smooth_path_loop_head? walls rest path]

lemma smooth_path_loop_getLast? (walls : Walls) :
    ∀ (choices : List (ℕ × ℕ)) (path : List Pos),
      (smooth_path_loop walls choices path).getLast? = path.getLast?
  | [], _ => rfl
  | (a, b) :: rest, path => by
      simp only [smooth_path_loop]
      by_cases h2 : path.length ≤ 2
      · rw [if_pos h2]
      · rw [if_neg h2]
        by_cases hc : min a b < max a b ∧ max a b < path.length ∧
            is_collision_free_line (path.getD (min a b) (0, 0)) (path.getD (max a b) (0, 0))
              walls 100
        · rw [if_pos hc, smooth_path_loop_getLast? walls rest _,
            getLast?_splice _ _ _ hc.2.1]
        · rw [if_neg hc, smooth_path_loop_getLast? walls rest path]

lemma smooth_path_loop_length (walls : Walls) :
    ∀ (choices : List (ℕ × ℕ)) (path : List Pos),
      (smooth_path_loop walls choices path).length ≤ path.length
  | [], _ => le_refl _
  | (a, b) :: rest, path => by
      simp only [smooth_path_loop]
      by_cases h2 : path.length ≤ 2
      · rw [if_pos h2]
      · rw [if_neg h2]
        by_cases hc : min a b < max a b ∧ max a b < path.length ∧
            is_collision_free_line (path.getD (min a b) (0, 0)) (path.getD (max a b) (0, 0))
              walls 100
        · rw [if_pos hc]
          exact le_trans (smooth_path_loop_length walls rest _)
            (length_splice path (min a b) (max a b) hc.1)
        · rw [if_neg hc]
          exact smooth_path_loop_length walls rest path

lemma smooth_path_loop_sublist (walls : Walls) :
    ∀ (choices : List (ℕ × ℕ)) (path : List Pos),
      List.Sublist (smooth_path_loop walls choices path) path
  | [], _ => List.Sublist.refl _
  | (a, b) :: rest, path => by
      simp only [smooth_path_loop]
      by_cases h2 : path.length ≤ 2
      · rw [if_pos h2]
      · rw [if_neg h2]
        by_cases hc : min a b < max a b ∧ max a b < path.length ∧
            is_collision_free_line (path.getD (min a b) (0, 0)) (path.getD (max a b) (0, 0))
              walls 100
        · rw [if_pos hc]
          exact (smooth_path_loop_sublist walls rest _).trans
            (splice_sublist path (min a b) (max a b) hc.1)
        · rw [if_neg hc]
          exact smooth_path_loop_sublist walls rest path

lemma smooth_path_loop_segments (walls : Walls) :
    ∀ (choices : List (ℕ × ℕ)) (path : List Pos), segments_ok walls path →
      segments_ok walls (smooth_path_loop walls choices path)
  | [], _, h => h
  | (a, b) :: rest, path, h => by
      simp only [smooth_path_loop]
      by_cases h2 : path.length ≤ 2
      · rw [if_pos h2]
        exact h
      · rw [if_neg h2]
        by_cases hc : min a b < max a b ∧ max a b < path.length ∧
            is_collision_free_line (path.getD (min a b) (0, 0)) (path.getD (max a b) (0, 0))
              walls 100
        · rw [if_pos hc]
          exact smooth_path_loop_segments walls rest _
            (segments_ok_splice path (min a b) (max a b) hc.1 hc.2.1 h hc.2.2)
        · rw [if_neg hc]
          exact smooth_path_loop_segments walls rest path h

/-- Claim C2: for every path of length at least 1, every obstacle set and
every stream of random draws, smooth_path returns a sequence whose first
element equals the first element of the input, whose last element equals the
last element of the input, and whose length is at most the input length. -/
theorem C2_smooth_endpoints_length (walls : Walls) (choices : List (ℕ × ℕ)) (path : List Pos)
    (h : 1 ≤ path.length) :
    (smooth_path path walls choices).head? = path.head? ∧
    (smooth_path path walls choices).getLast? = path.getLast? ∧
    (smooth_path path walls choices).length ≤ path.length :=
  ⟨smooth_path_loop_head? walls choices path, smooth_path_loop_getLast? walls choices path,
    smooth_path_loop_length walls choices path⟩

/-- Witness for claim C2 at the concrete one-waypoint path. -/
theorem C2_witness :
    (smooth_path [((0 : ℝ), (0 : ℝ))] [] []).head? = ([((0 : ℝ), (0 : ℝ))] : List Pos).head? ∧
    (smooth_path [((0 : ℝ), (0 : ℝ))] [] []).getLast? =
      ([((0 : ℝ), (0 : ℝ))] : List Pos).getLast? ∧
    (smooth_path [((0 : ℝ), (0 : ℝ))] [] []).length ≤ ([((0 : ℝ), (0 : ℝ))] : List Pos).length :=
  C2_smooth_endpoints_length [] [] [((0 : ℝ), (0 : ℝ))] (by simp)

/-- Claim C6: if every segment between consecutive waypoints of the input
path passes is_collision_free_line for the given obstacle set, then so does
every segment between consecutive waypoints of the output of smooth_path. -/
theorem C6_smooth_segments (walls : Walls) (choices : List (ℕ × ℕ)) (path : List Pos)
    (h : segments_ok walls path) : segments_ok walls (smooth_path path walls choices) :=
  smooth_path_loop_segments walls choices path h

/-- Witness for claim C6 at the concrete one-waypoint path. -/
theorem C6_witness : segments_ok [] (smooth_path [((0 : ℝ), (0 : ℝ))] [] []) :=
  C6_smooth_segments [] [] [((0 : ℝ), (0 : ℝ))] trivial

/-- Claim C10: for every input path, obstacle set and stream of random
draws, the output of smooth_path is an order-preserving subsequence of the
input path (the embedding is pure, so the input itself is unmodified, just
as the source operates on a copy of its input list). -/
theorem C10_smooth_subsequence (walls : Walls) (choices : List (ℕ × ℕ)) (path : List Pos) :
    List.Sublist (smooth_path path walls choices) path :=
  smooth_path_loop_sublist walls choices path

/-- Claim C4 (the code is wrong here): the per-segment setup of the
trajectory follower computes the normalized segment direction with no guard
for a zero-length segment, so for two identical consecutive waypoints the
division divides by zero (the none branch of the embedding) instead of the
segment being treated as already arrived and skipped. -/
theorem C4_degenerate_segment_division (p : Pos) : line_direction_normalized p p = none := by
  have h0 : norm2 (p - p) = 0 := by
    rw [sub_self]
    simp [norm2]
  simp only [line_direction_normalized]
  rw [if_pos h0]

/-- Claim C5 (the code is wrong here): at A = (0, 0), B = (2, 0), P = (0, 1)
the deviation expression of the source evaluates to -2 because the missing
parentheses divide only the second product by the segment length, while the
signed perpendicular deviation described by the claim evaluates to -1. -/
theorem C5_deviation_mismatch :
    deviation_code ((0 : ℝ), (0 : ℝ)) ((2 : ℝ), (0 : ℝ)) ((0 : ℝ), (1 : ℝ)) = -2 ∧
    deviation_spec ((0 : ℝ), (0 : ℝ)) ((2 : ℝ), (0 : ℝ)) ((0 : ℝ), (1 : ℝ)) = -1 ∧
    deviation_code ((0 : ℝ), (0 : ℝ)) ((2 : ℝ), (0 : ℝ)) ((0 : ℝ), (1 : ℝ)) ≠
      deviation_spec ((0 : ℝ), (0 : ℝ)) ((2 : ℝ), (0 : ℝ)) ((0 : ℝ), (1 : ℝ)) := by
  have hs : Real.sqrt ((((2 : ℝ), (0 : ℝ)).1 - ((0 : ℝ), (0 : ℝ)).1) ^ 2 +
      (((2 : ℝ), (0 : ℝ)).2 - ((0 : ℝ), (0 : ℝ)).2) ^ 2) = 2 := by
    rw [show (((2 : ℝ), (0 : ℝ)).1 - ((0 : ℝ), (0 : ℝ)).1) ^ 2 +
        (((2 : ℝ), (0 : ℝ)).2 - ((0 : ℝ), (0 : ℝ)).2) ^ 2 = 2 ^ 2 by norm_num]
    exact Real.sqrt_sq (by norm_num)
  refine ⟨?_, ?_, ?_⟩
  · simp only [deviation_code, hs]
    norm_num
  · simp only [deviation_spec, hs]
    norm_num
  · simp only [deviation_code, deviation_spec, hs]
    norm_num

/-- Claim C7: on every control tick the desired speed equals the cruise
speed 10 when the distance to the segment endpoint is at least the slowdown
threshold 1, and otherwise equals max 1 (distance * 10), so it always lies
between 1 and 10; the applied control vector is the per-axis PID output
vector normalized to unit length and scaled by the desired speed whenever
that vector is nonzero, and the normalization is skipped, leaving the raw
vector, exactly when its magnitude is zero. -/
theorem C7_speed_shaping_and_normalization (pid_x pid_y : PIDController)
    (ball_pos end_pos : Pos) (dt : ℝ) :
    ((1 : ℝ) ≤ norm2 (end_pos - ball_pos) →
      (control_tick pid_x pid_y ball_pos end_pos dt).desired_speed = 10) ∧
    (norm2 (end_pos - ball_pos) < 1 →
      (control_tick pid_x pid_y ball_pos end_pos dt).desired_speed =
        max 1 (norm2 (end_pos - ball_pos) * 10)) ∧
    (1 : ℝ) ≤ (control_tick pid_x pid_y ball_pos end_pos dt).desired_speed ∧
    (control_tick pid_x pid_y ball_pos end_pos dt).desired_speed ≤ 10 ∧
    (norm2 ((PIDController.compute pid_x ball_pos.1 dt).1,
        (PIDController.compute pid_y ball_pos.2 dt).1) ≠ 0 →
      (control_tick pid_x pid_y ball_pos end_pos dt).control =
        ((PIDController.compute pid_x ball_pos.1 dt).1 /
            norm2 ((PIDController.compute pid_x ball_pos.1 dt).1,
              (PIDController.compute pid_y ball_pos.2 dt).1) *
            (control_tick pid_x pid_y ball_pos end_pos dt).desired_speed,
          (PIDController.compute pid_y ball_pos.2 dt).1 /
            norm2 ((PIDController.compute pid_x ball_pos.1 dt).1,
              (PIDController.compute pid_y ball_pos.2 dt).1) *
            (control_tick pid_x pid_y ball_pos end_pos dt).desired_speed)) ∧
    (norm2 ((PIDController.compute pid_x ball_pos.1 dt).1,
        (PIDController.compute pid_y ball_pos.2 dt).1) = 0 →
      (control_tick pid_x pid_y ball_pos end_pos dt).control =
        ((PIDController.compute pid_x ball_pos.1 dt).1,
          (PIDController.compute pid_y ball_pos.2 dt).1)) := by
  simp only [control_tick]
  set d := norm2 (end_pos - ball_pos) with hd
  set m := norm2 ((PIDController.compute pid_x ball_pos.1 dt).1,
    (PIDController.compute pid_y ball_pos.2 dt).1) with hm
  have hd0 : 0 ≤ d := norm2_nonneg _
  have hm0 : 0 ≤ m := norm2_nonneg _
  refine ⟨?_, ?_, ?_, ?_, ?_, ?_⟩
  · intro h
    rw [if_neg (not_lt.mpr h)]
  · intro h
    rw [if_pos h, div_one]
  · split_ifs with h
    · exact le_max_left _ _
    · norm_num
  · split_ifs with h
    · rw [div_one]
      exact max_le (by norm_num) (by nlinarith)
    · exact le_refl _
  · intro h
    rw [if_pos (lt_of_le_of_ne hm0 (Ne.symm h))]
  · intro h
    rw [if_neg (by rw [h]; exact lt_irrefl 0)]

/-- Witness for claim C7 at concrete inputs: with zero gains and the ball at
the origin the PID outputs vanish, so the zero-magnitude branch applies, and
with the endpoint at distance 2 the cruise speed 10 is selected. -/
theorem C7_witness :
    (control_tick (PIDController.mk 0 0 0 0 0 0) (PIDController.mk 0 0 0 0 0 0)
        ((0 : ℝ), (0 : ℝ)) ((2 : ℝ), (0 : ℝ)) 0.01).desired_speed = 10 ∧
    (control_tick (PIDController.mk 0 0 0 0 0 0) (PIDController.mk 0 0 0 0 0 0)
        ((0 : ℝ), (0 : ℝ)) ((2 : ℝ), (0 : ℝ)) 0.01).control =
      ((PIDController.compute (PIDController.mk 0 0 0 0 0 0) (((0 : ℝ), (0 : ℝ)) : Pos).1
          0.01).1,
        (PIDController.compute (PIDController.mk 0 0 0 0 0 0) (((0 : ℝ), (0 : ℝ)) : Pos).2
          0.01).1) := by
  have h := C7_speed_shaping_and_normalization (PIDController.mk 0 0 0 0 0 0)
    (PIDController.mk 0 0 0 0 0 0) ((0 : ℝ), (0 : ℝ)) ((2 : ℝ), (0 : ℝ)) 0.01
  have hsub : (((2 : ℝ), (0 : ℝ)) : Pos) - ((0 : ℝ), (0 : ℝ)) = ((2 : ℝ), (0 : ℝ)) := by
    apply Prod.ext <;> simp
  have hd : (1 : ℝ) ≤ norm2 ((((2 : ℝ), (0 : ℝ)) : Pos) - ((0 : ℝ), (0 : ℝ))) := by
    rw [hsub]
    have h2 : norm2 ((2 : ℝ), (0 : ℝ)) = 2 := by
      show Real.sqrt ((2 : ℝ) ^ 2 + (0 : ℝ) ^ 2) = 2
      rw [show (2 : ℝ) ^ 2 + (0 : ℝ) ^ 2 = 2 ^ 2 by norm_num]
      exact Real.sqrt_sq (by norm_num)
    rw [h2]
    norm_num
  have hczero : (PIDController.compute (PIDController.mk 0 0 0 0 0 0) (0 : ℝ) 0.01).1 = 0 := by
    simp [PIDController.compute]
  have hm : norm2 ((PIDController.compute (PIDController.mk 0 0 0 0 0 0)
      (((0 : ℝ), (0 : ℝ)) : Pos).1 0.01).1,
      (PIDController.compute (PIDController.mk 0 0 0 0 0 0)
        (((0 : ℝ), (0 : ℝ)) : Pos).2 0.01).1) = 0 := by
    have h1 : (((0 : ℝ), (0 : ℝ)) : Pos).1 = (0 : ℝ) := rfl
    have h2 : (((0 : ℝ), (0 : ℝ)) : Pos).2 = (0 : ℝ) := rfl
    rw [h1, h2, hczero]
    exact norm2_zero
  exact ⟨h.1 hd, h.2.2.2.2.2 hm⟩

/-- Claim C9: for distinct positions choose_control returns a vector of
Euclidean norm exactly 1, and the division carries no zero guard, so a
sample equal to the nearest position hits the division-by-zero error branch
made explicit by choose_control_checked. -/
theorem C9_choose_control_unit (p q : Pos) :
    (p ≠ q → choose_control_checked p q = some (choose_control p q) ∧
      norm2 (choose_control p q) = 1) ∧
    choose_control_checked p p = none := by
  constructor
  · intro h
    have hne : q ≠ p := fun hc => h hc.symm
    have hdne : (q - p : Pos) ≠ 0 := sub_ne_zero.mpr hne
    have hn : norm2 ((q : Pos) - p) ≠ 0 := ne_of_gt (norm2_pos_of_ne hdne)
    refine ⟨?_, norm2_choose_control hne⟩
    simp only [choose_control_checked]
    rw [if_neg hn]
  · have h0 : norm2 ((p : Pos) - p) = 0 := by
      rw [sub_self]
      simp [norm2]
    simp only [choose_control_checked]
    rw [if_pos h0]

/-- Witness for claim C9 at concrete inputs: from (0, 0) toward (1, 0) the
control is defined and has norm 1, and at coinciding positions the checked
variant reports the division by zero. -/
theorem C9_witness :
    choose_control_checked ((0 : ℝ), (0 : ℝ)) ((1 : ℝ), (0 : ℝ)) =
      some (choose_control ((0 : ℝ), (0 : ℝ)) ((1 : ℝ), (0 : ℝ))) ∧
    norm2 (choose_control ((0 : ℝ), (0 : ℝ)) ((1 : ℝ), (0 : ℝ))) = 1 ∧
    choose_control_checked ((0 : ℝ), (0 : ℝ)) ((0 : ℝ), (0 : ℝ)) = none := by
  have hne : (((0 : ℝ), (0 : ℝ)) : Pos) ≠ ((1 : ℝ), (0 : ℝ)) := by
    intro hc
    have h1 := congrArg Prod.fst hc
    norm_num at h1
  have h := (C9_choose_control_unit ((0 : ℝ), (0 : ℝ)) ((1 : ℝ), (0 : ℝ))).1 hne
  exact ⟨h.1, h.2, (C9_choose_control_unit ((0 : ℝ), (0 : ℝ)) ((0 : ℝ), (0 : ℝ))).2⟩

/-- Witness for claim C8 at concrete inputs: a step from the origin toward
the sample (1, 0) lands at distance exactly 0.05. -/
theorem C8_witness :
    (((1 : ℝ), (0 : ℝ)) : Pos) ≠ ((0 : ℝ), (0 : ℝ)) ∧
    norm2 (simulate ((0 : ℝ), (0 : ℝ))
        (choose_control ((0 : ℝ), (0 : ℝ)) ((1 : ℝ), (0 : ℝ))) 0.05 -
      ((0 : ℝ), (0 : ℝ))) = 0.05 := by
  have hne : (((1 : ℝ), (0 : ℝ)) : Pos) ≠ ((0 : ℝ), (0 : ℝ)) := by
    intro hc
    have h1 := congrArg Prod.fst hc
    norm_num at h1
  exact ⟨hne, ((C8_step_distance ((0 : ℝ), (0 : ℝ)) [] [] []).1
    ((0 : ℝ), (0 : ℝ)) ((1 : ℝ), (0 : ℝ)) hne).2⟩

/-! Concrete planner runs used by the counterexamples and witnesses. -/

lemma norm2_one_zero : norm2 ((1 : ℝ), (0 : ℝ)) = 1 := by
  show Real.sqrt ((1 : ℝ) ^ 2 + (0 : ℝ) ^ 2) = 1
  rw [show (1 : ℝ) ^ 2 + (0 : ℝ) ^ 2 = 1 by norm_num]
  exact Real.sqrt_one

lemma choose_control_run1 :
    choose_control ((0 : ℝ), (0 : ℝ)) ((1 : ℝ), (0 : ℝ)) = ((1 : ℝ), (0 : ℝ)) := by
  have hsub : (((1 : ℝ), (0 : ℝ)) : Pos) - ((0 : ℝ), (0 : ℝ)) = ((1 : ℝ), (0 : ℝ)) := by
    apply Prod.ext <;> simp
  simp only [choose_control, hsub, norm2_one_zero]
  apply Prod.ext <;> simp

lemma simulate_run1 :
    simulate ((0 : ℝ), (0 : ℝ)) ((1 : ℝ), (0 : ℝ)) 0.05 = ((0.05 : ℝ), (0 : ℝ)) := by
  simp only [simulate]
  apply Prod.ext <;> norm_num

lemma cf_origin : is_collision_free ((0 : ℝ), (0 : ℝ)) [] 0.1 := by
  refine ⟨?_, ?_⟩
  · intro h
    rcases h with h | h | h | h <;> norm_num at h
  · intro coords hc
    simp at hc

lemma cf_run1 : is_collision_free ((0.05 : ℝ), (0 : ℝ)) [] 0.1 := by
  refine ⟨?_, ?_⟩
  · intro h
    rcases h with h | h | h | h <;> norm_num at h
  · intro coords hc
    simp at hc

lemma goal_run1 : is_in_goal_area ((0.05 : ℝ), (0 : ℝ)) [((0.05 : ℝ), (0 : ℝ))] :=
  ⟨le_refl _, le_refl _, le_refl _, le_refl _⟩

lemma not_goal_origin : ¬ is_in_goal_area ((0 : ℝ), (0 : ℝ)) [((5 : ℝ), (5 : ℝ))] := by
  intro h
  have h1 : (5 : ℝ) ≤ 0 := h.1
  norm_num at h1

/-- Evaluation of the planner run from the origin with the single sample
(1, 0), no obstacles and the goal box given by the single corner
(0.05, 0): the first and only iteration accepts the node at (0.05, 0),
which lies in the goal area, and the start-to-goal path is returned. -/
lemma run1_loop :
    kinodynamic_rrt_loop [((0.05 : ℝ), (0 : ℝ))] [] [((1 : ℝ), (0 : ℝ))]
      [Node.mk ((0 : ℝ), (0 : ℝ)) none none] =
    ([Node.mk ((0 : ℝ), (0 : ℝ)) none none,
      Node.mk ((0.05 : ℝ), (0 : ℝ)) (some (Node.mk ((0 : ℝ), (0 : ℝ)) none none))
        (some ((1 : ℝ), (0 : ℝ)))],
      some [((0 : ℝ), (0 : ℝ)), ((0.05 : ℝ), (0 : ℝ))]) := by
  have hnear : nearest [Node.mk ((0 : ℝ), (0 : ℝ)) none none] ((1 : ℝ), (0 : ℝ)) =
      Node.mk ((0 : ℝ), (0 : ℝ)) none none := rfl
  simp only [kinodynamic_rrt_loop, hnear, Node.position, choose_control_run1, simulate_run1,
    cf_run1, goal_run1, if_true, construct_path, node_chain, List.reverse_cons,
    List.reverse_nil, List.nil_append, List.singleton_append, List.cons_append]

/-- The same run through the kinodynamic_rrt wrapper. -/
lemma run1_rrt :
    kinodynamic_rrt ((0 : ℝ), (0 : ℝ)) [((0.05 : ℝ), (0 : ℝ))] [] [((1 : ℝ), (0 : ℝ))] =
      some [((0 : ℝ), (0 : ℝ)), ((0.05 : ℝ), (0 : ℝ))] := by
  simp only [kinodynamic_rrt, run1_loop]

/-- Evaluation of the planner run from the origin whose single sample
coincides with the start position: the unguarded division by a zero norm
produces the zero control, and the accepted node sits at the parent
position. -/
lemma run2_loop :
    kinodynamic_rrt_loop [((5 : ℝ), (5 : ℝ))] [] [((0 : ℝ), (0 : ℝ))]
      [Node.mk ((0 : ℝ), (0 : ℝ)) none none] =
    ([Node.mk ((0 : ℝ), (0 : ℝ)) none none,
      Node.mk ((0 : ℝ), (0 : ℝ)) (some (Node.mk ((0 : ℝ), (0 : ℝ)) none none))
        (some ((0 : ℝ), (0 : ℝ)))], none) := by
  have hnear : nearest [Node.mk ((0 : ℝ), (0 : ℝ)) none none] ((0 : ℝ), (0 : ℝ)) =
      Node.mk ((0 : ℝ), (0 : ℝ)) none none := rfl
  have hcc : choose_control ((0 : ℝ), (0 : ℝ)) ((0 : ℝ), (0 : ℝ)) = ((0 : ℝ), (0 : ℝ)) :=
    choose_control_self _
  have hsim : simulate ((0 : ℝ), (0 : ℝ)) ((0 : ℝ), (0 : ℝ)) 0.05 = ((0 : ℝ), (0 : ℝ)) :=
    simulate_zero_control _
  simp only [kinodynamic_rrt_loop, hnear, Node.position, hcc, hsim, cf_origin, if_true,
    not_goal_origin, if_false, List.singleton_append, List.cons_append, List.nil_append]

/-- Counterexample to claim C1 as stated: the root node, created from the
caller-supplied start position (2, 0) lying outside the workspace bounds,
belongs to the planner tree although is_collision_free fails for it, because
the source never collision-checks the start node. -/
theorem C1_cex :
    ¬ ∀ n ∈ (kinodynamic_rrt_loop [((5 : ℝ), (5 : ℝ))] [] []
        [Node.mk ((2 : ℝ), (0 : ℝ)) none none]).1,
      is_collision_free n.position [] 0.1 := by
  intro h
  have hmem : Node.mk ((2 : ℝ), (0 : ℝ)) none none ∈
      (kinodynamic_rrt_loop [((5 : ℝ), (5 : ℝ))] [] []
        [Node.mk ((2 : ℝ), (0 : ℝ)) none none]).1 := by
    rw [show kinodynamic_rrt_loop [((5 : ℝ), (5 : ℝ))] [] []
        [Node.mk ((2 : ℝ), (0 : ℝ)) none none] =
        ([Node.mk ((2 : ℝ), (0 : ℝ)) none none], none) from rfl]
    exact List.mem_singleton.mpr rfl
  have hcf := h _ hmem
  apply hcf.1
  right
  left
  show (2 : ℝ) > 1.5
  norm_num

/-- Counterexample to claim C8 as stated: when the sampled position
coincides with the nearest node position, the unguarded division by a zero
norm yields the zero control, and the accepted node lies at distance 0, not
0.05, from its parent (in the source the numpy division produces NaN
components, which equally violates the claimed exact distance). -/
theorem C8_cex :
    ¬ ∀ n ∈ (kinodynamic_rrt_loop [((5 : ℝ), (5 : ℝ))] [] [((0 : ℝ), (0 : ℝ))]
        [Node.mk ((0 : ℝ), (0 : ℝ)) none none]).1,
      ∀ par, n.parent = some par → norm2 (n.position - par.position) = 0.05 := by
  intro h
  have hmem : Node.mk ((0 : ℝ), (0 : ℝ)) (some (Node.mk ((0 : ℝ), (0 : ℝ)) none none))
      (some ((0 : ℝ), (0 : ℝ))) ∈
      (kinodynamic_rrt_loop [((5 : ℝ), (5 : ℝ))] [] [((0 : ℝ), (0 : ℝ))]
        [Node.mk ((0 : ℝ), (0 : ℝ)) none none]).1 := by
    rw [run2_loop]
    simp
  have hd := h _ hmem (Node.mk ((0 : ℝ), (0 : ℝ)) none none) rfl
  have hd2 : norm2 ((((0 : ℝ), (0 : ℝ)) : Pos) - ((0 : ℝ), (0 : ℝ))) = 0.05 := hd
  rw [show (((0 : ℝ), (0 : ℝ)) : Pos) - ((0 : ℝ), (0 : ℝ)) = ((0 : ℝ), (0 : ℝ)) by
    apply Prod.ext <;> simp, norm2_zero] at hd2
  norm_num at hd2

/-- Witness for the amended claim C1 at a concrete successful run with a
collision-free start: every tree node and every returned waypoint is
collision free. -/
theorem C1_witness :
    is_collision_free ((0 : ℝ), (0 : ℝ)) [] 0.1 ∧
    (∀ n ∈ (kinodynamic_rrt_loop [((0.05 : ℝ), (0 : ℝ))] [] [((1 : ℝ), (0 : ℝ))]
        [Node.mk ((0 : ℝ), (0 : ℝ)) none none]).1,
      is_collision_free n.position [] 0.1) ∧
    ∀ pos ∈ ([((0 : ℝ), (0 : ℝ)), ((0.05 : ℝ), (0 : ℝ))] : List Pos),
      is_collision_free pos [] 0.1 := by
  have h := (C1_collision_invariant ((0 : ℝ), (0 : ℝ)) [((0.05 : ℝ), (0 : ℝ))] []
    [((1 : ℝ), (0 : ℝ))]).2.2 cf_origin
  exact ⟨cf_origin, h.1, h.2 _ run1_rrt⟩

/-- Witness for claim C3 at a concrete successful run: the returned path is
nonempty, starts at the start position and ends inside the goal area. -/
theorem C3_witness :
    ([((0 : ℝ), (0 : ℝ)), ((0.05 : ℝ), (0 : ℝ))] : List Pos) ≠ [] ∧
    ([((0 : ℝ), (0 : ℝ)), ((0.05 : ℝ), (0 : ℝ))] : List Pos).head? = some ((0 : ℝ), (0 : ℝ)) ∧
    ∃ q, ([((0 : ℝ), (0 : ℝ)), ((0.05 : ℝ), (0 : ℝ))] : List Pos).getLast? = some q ∧
      is_in_goal_area q [((0.05 : ℝ), (0 : ℝ))] := by
  have h := (C3_path_structure ((0 : ℝ), (0 : ℝ)) [((0.05 : ℝ), (0 : ℝ))] []
    [((1 : ℝ), (0 : ℝ))]).1 [((0 : ℝ), (0 : ℝ)), ((0.05 : ℝ), (0 : ℝ))] run1_rrt
  exact ⟨h.1, h.2.1, h.2.2.1⟩

end Movement
